import Mathlib

/-
  Verification development for the structure.md reconciliation engine
  (src/manage_structure.py): the filesystem scanner
  scan_project_files_for_verify and the tree-diagram parser
  extract_documented_paths, plus the serializer described by the
  round-trip property of the specification.

  Python strings are embedded as lists of characters (Str).  The ignore
  rules, which the script keeps in module-level constants, are passed as
  an explicit configuration value (the specification itself prescribes
  this shape); defaultCfg mirrors the constants of the script.  The
  whitespace classes of the regexes and of str.strip are modelled by
  their ASCII members, which are the only ones the diagrams use.
-/

abbrev Str := List Char

def str (s : String) : Str := s.data

/-- ASCII members of the Python whitespace class (regex backslash-s and
str.strip). -/
def isPySpace (c : Char) : Bool :=
  c = ' ' || c = '\t' || c = '\n' || c = '\r' || c = '\x0b' || c = '\x0c'

def rstripW (l : Str) : Str := (l.reverse.dropWhile isPySpace).reverse

/-- Python str.strip(). -/
def pyStrip (l : Str) : Str := rstripW (l.dropWhile isPySpace)

/-- Python s.rstrip(the slash character): drops every trailing slash. -/
def rstripSlash (l : Str) : Str := (l.reverse.dropWhile (fun c => c = '/')).reverse

def endsSlash (l : Str) : Bool := l.getLast? = some '/'

def startsSlash (l : Str) : Bool := l.head? = some '/'

/-- The decoration class of the line regex in extract_documented_paths:
the box-drawing glyphs of the character class together with whitespace. -/
def isDeco (c : Char) : Bool :=
  c = '│' || c = '├' || c = '└' || c = '─' || isPySpace c

/-- Split a character list at every occurrence of sep (semantics of
Python str.split(sep) for a one-character separator). -/
def splitChar (sep : Char) : Str → List Str
  | [] => [[]]
  | c :: rest =>
    if c = sep then [] :: splitChar sep rest
    else
      match splitChar sep rest with
      | [] => [[c]]
      | s :: ss => (c :: s) :: ss

/-- The non-root components of pathlib PurePosixPath: split on the
separator, dropping empty components and single-dot components. -/
def pyComps (p : Str) : List Str :=
  (splitChar '/' p).filter (fun c => decide (c ≠ []) && decide (c ≠ [ '.']))

/-- The root marker that pathlib prepends to .parts of an absolute
path (a lone slash, or a double slash for exactly two leading slashes). -/
def pyRootMarker (p : Str) : List Str :=
  if [ '/', '/'].isPrefixOf p && !([ '/', '/', '/'].isPrefixOf p) then [[ '/', '/']]
  else if [ '/'].isPrefixOf p then [[ '/']]
  else []

/-- pathlib Path(p).parts. -/
def pyParts (p : Str) : List Str := pyRootMarker p ++ pyComps p

/-- pathlib Path(p).name: the final component, or empty. -/
def pyName (p : Str) : Str := (pyComps p).getLastD []

/-- pathlib suffix of a final name: from the last dot, provided that dot
is neither the first nor the last character of the name. -/
def pySuffixOfName (n : Str) : Str :=
  let tl := n.reverse.takeWhile (fun c => c ≠ '.')
  if tl.length = n.length then []
  else
    let i := n.length - 1 - tl.length
    if 0 < i ∧ i < n.length - 1 then n.drop i else []

/-- Python str.lower (ASCII). -/
def lowerStr (l : Str) : Str := l.map Char.toLower

def strEndsWith (l suf : Str) : Bool := suf.isSuffixOf l

/-- The ignore-rule configuration: directory names, file names,
extensions, and the regex patterns (abstracted to the predicate "some
ignored pattern matches from the start of the path"). -/
structure Config where
  dirs : List Str
  files : List Str
  exts : List Str
  patterns : Str → Bool

/-- The constants IGNORE_DIRS, IGNORE_FILES, IGNORE_EXTENSIONS and
IGNORE_PATTERNS of the script.  The two regexes match exactly the paths
ending in ".pyc" or ".log" (dot-star is anchored only by the match start
and the patterns end in a dollar). -/
def defaultCfg : Config where
  dirs := [str ".git", str "node_modules", str ".vscode", str ".idea", str "__pycache__"]
  files := [str "manage_structure.py", str "structure.md", str "bun.lockb",
            str "package-lock.json", str ".DS_Store"]
  exts := [str ".png", str ".sql", str ".svg", str ".ico", str ".lockb"]
  patterns := fun p => strEndsWith p (str ".pyc") || strEndsWith p (str ".log")

/- ------------------------------------------------------------------
   The tree-diagram parser extract_documented_paths.

   The line regex, anchored at the start, is: a greedy run of the
   decoration class, a lazy group, and an optional trailing comment
   (whitespace then a hash then anything).  The greedy class run never
   backtracks (the lazy group accepts any character the class accepts),
   so the first group is the longest decoration run; the lazy group
   then extends minimally so that the remainder is empty or is
   whitespace followed by a hash; after the final .strip() this equals
   the stripped remainder truncated at its first hash.
   ------------------------------------------------------------------ -/

/-- The node token of one diagram line: the text after the decoration
run, truncated at the first hash, stripped. -/
def nodePartOf (line : Str) : Str :=
  pyStrip ((line.dropWhile isDeco).takeWhile (fun c => c ≠ '#'))

/-- The indentation of one diagram line: the character length of the
decoration run. -/
def indentOf (line : Str) : Nat := (line.takeWhile isDeco).length

/-- The stack-unwinding while loop: pop while the stack is non-empty
and the new indentation is at most the indentation on top. -/
def popStack (indent : Nat) : List (Str × Nat) → List (Str × Nat)
  | [] => []
  | (p, i) :: rest => if indent ≤ i then popStack indent rest else (p, i) :: rest

def parentOf (stack : List (Str × Nat)) : Str :=
  match stack with
  | [] => []
  | (p, _) :: _ => p

/-- The current-path computation of the loop body: join under the
parent when the parent is non-empty and the node does not begin with a
slash; otherwise take the node itself, unless its name (slashes
stripped) is an ignored directory or file name, in which case the line
is dropped (none). -/
def computeCurrent (cfg : Config) (parent node : Str) : Option Str :=
  if parent ≠ [] ∧ startsSlash node = false then some (parent ++ '/' :: node)
  else if rstripSlash node ∈ cfg.dirs ∨ rstripSlash node ∈ cfg.files then none
  else some node

/-- Python set insertion (set.add), on the duplicate-free list that
represents the set in insertion order. -/
def addPath (l : List Str) (p : Str) : List Str := if p ∈ l then l else l ++ [p]

structure PState where
  stack : List (Str × Nat)
  acc : List Str
deriving DecidableEq

/-- The tail of the loop body, after the current path is known: the
name-based and extension-based skips, the conditional emit (no path
component may be an ignored directory name), and the conditional push. -/
def afterPath (cfg : Config) (acc : List Str) (stack1 : List (Str × Nat))
    (indent : Nat) (node current : Str) : PState :=
  let isDir := endsSlash node
  let clean := rstripSlash current
  let nm := pyName clean
  if nm ∈ cfg.dirs then ⟨stack1, acc⟩
  else if isDir = false ∧ lowerStr (pySuffixOfName nm) ∈ cfg.exts then ⟨stack1, acc⟩
  else if nm ∈ cfg.files then ⟨stack1, acc⟩
  else
    let finalp := if isDir then clean ++ [ '/'] else clean
    let acc' := if ∀ part ∈ pyParts finalp, part ∉ cfg.dirs then addPath acc finalp else acc
    let stack' := if isDir = true ∧ nm ∉ cfg.dirs then (clean, indent) :: stack1 else stack1
    ⟨stack', acc'⟩

/-- One iteration of the parsing loop.  The continues before the pop
leave the stack untouched; the continues after the pop keep the popped
stack, exactly as the mutation order of the Python loop does. -/
def processLine (cfg : Config) (st : PState) (line : Str) : PState :=
  let ls := pyStrip line
  if ls = [] ∨ ls = [ '.'] then st
  else
    let node := nodePartOf line
    if node = [] then st
    else
      let potential := rstripSlash node
      if '*' ∈ node then st
      else if (potential ∈ cfg.dirs ∨ potential ∈ cfg.files) ∧ st.stack = [] then st
      else if endsSlash node = true ∧ potential ∈ cfg.dirs then st
      else
        let indent := indentOf line
        let stack1 := popStack indent st.stack
        match computeCurrent cfg (parentOf stack1) node with
        | none => ⟨stack1, st.acc⟩
        | some current => afterPath cfg st.acc stack1 indent node current

/- ------------------------------------------------------------------
   The fenced-code-block search.  The pattern is: three backticks, an
   optional word-run followed by a newline, a lazy group, three
   backticks (dot matches newlines).  A match attempt at the first
   triple succeeds exactly when some later triple exists, because the
   lazy group accepts anything; and if no later triple exists then no
   later starting position can succeed either, so searching from the
   first triple alone is faithful to re.search.
   ------------------------------------------------------------------ -/

/-- Split at the first occurrence of three consecutive backticks. -/
def splitAtTriple : Str → Option (Str × Str)
  | '`' :: '`' :: '`' :: rest => some ([], rest)
  | c :: rest =>
    (match splitAtTriple rest with
     | none => none
     | some (a, b) => some (c :: a, b))
  | [] => none

def isWordChar (c : Char) : Bool := c.isAlphanum || c = '_'

/-- The match attempt after an opening triple: the optional group
greedily takes the word-run and a newline when it can and a closing
triple follows; otherwise it matches empty. -/
def matchAfterOpen (rest : Str) : Option Str :=
  let attempt :=
    match rest.dropWhile isWordChar with
    | '\n' :: body => (splitAtTriple body).map Prod.fst
    | _ => none
  match attempt with
  | some g => some g
  | none => (splitAtTriple rest).map Prod.fst

/-- re.search of the code-block pattern: the group of the first match,
or none. -/
def findBlock (s : Str) : Option Str :=
  match splitAtTriple s with
  | none => none
  | some (_, rest) => matchAfterOpen rest

/-- Python str.splitlines on newline-separated text. -/
def pySplitlines (l : Str) : List Str :=
  if l = [] then [] else splitChar '\n' l

/-- The final filtering comprehension of extract_documented_paths. -/
def finalFilterB (cfg : Config) (p : Str) : Bool :=
  decide (pyName p ∉ cfg.files) &&
  (!endsSlash p || decide (pyName p ∉ cfg.dirs)) &&
  decide (∀ part ∈ pyParts p, part ∉ cfg.dirs) &&
  (endsSlash p || decide (lowerStr (pySuffixOfName (pyName p)) ∉ cfg.exts))

def parseLines (cfg : Config) (lines : List Str) : List Str :=
  (lines.foldl (processLine cfg) ⟨[], []⟩).acc

/-- extract_documented_paths.  The argument models the attempted read
of the documentation file: none is a missing file (FileNotFoundError),
some is its content.  The none results are the error returns of the
function. -/
def extractDocumentedPaths (cfg : Config) (content? : Option Str) : Option (List Str) :=
  match content? with
  | none => none
  | some content =>
    match findBlock content with
    | none => none
    | some g =>
      some ((parseLines cfg (pySplitlines (pyStrip g))).filter (finalFilterB cfg))

/- ------------------------------------------------------------------
   The filesystem scanner scan_project_files_for_verify, over an
   abstract directory tree (names of subdirectories with their trees,
   and names of files).  os.walk is a topdown traversal with the
   ignored directory names pruned from dirnames before descent; the
   root directory itself is not emitted.
   ------------------------------------------------------------------ -/

mutual
inductive FSTree : Type where
  | node (dirs : FSDirs) (files : List Str) : FSTree
inductive FSDirs : Type where
  | nil : FSDirs
  | cons (name : Str) (tree : FSTree) (rest : FSDirs) : FSDirs
end

/-- Joining a relative directory and an entry name, as the posix
rendering of the pathlib join does for the scanner (the root relative
directory is the empty string here, standing for the single dot). -/
def joinRel (rel name : Str) : Str := if rel = [] then name else rel ++ '/' :: name

/-- The per-file filter of the scanner: ignored file names, ignored
extensions (of the lower-cased suffix), ignored patterns against the
relative path. -/
def keepFile (cfg : Config) (rel fn : Str) : Bool :=
  !(decide (fn ∈ cfg.files)) &&
  !(decide (lowerStr (pySuffixOfName (pyName fn)) ∈ cfg.exts)) &&
  !(cfg.patterns (joinRel rel fn))

mutual
def scanTree (cfg : Config) (rel : Str) : FSTree → List Str
  | .node ds fs =>
    (if rel = [] then [] else [rel ++ [ '/']]) ++
    (fs.filter (keepFile cfg rel)).map (joinRel rel) ++
    scanFSDirs cfg rel ds
def scanFSDirs (cfg : Config) (rel : Str) : FSDirs → List Str
  | .nil => []
  | .cons d t rest =>
    (if d ∈ cfg.dirs then [] else scanTree cfg (joinRel rel d) t) ++ scanFSDirs cfg rel rest
end

/-- Well-formedness of a name as a real directory entry: non-empty, no
slash, not the single dot. -/
def validName (n : Str) : Bool :=
  decide (n ≠ []) && !(decide ('/' ∈ n)) && decide (n ≠ [ '.'])

mutual
def validTree : FSTree → Bool
  | .node ds fs => fs.all validName && validDirs ds
def validDirs : FSDirs → Bool
  | .nil => true
  | .cons d t rest => validName d && validTree t && validDirs rest
end

/- ------------------------------------------------------------------
   The serializer of the round-trip property.  The repository contains
   no serializer; section 8 of the specification describes one: each
   entry of the scanned set rendered on one line at an indentation
   depth equal to its path-component count, directories keeping their
   trailing slash, inside a fenced code block.  A set has no inherent
   order and a tree diagram needs ancestors before descendants, so the
   canonical sorted order (the order Python sorted gives, lexicographic
   by code point) is used; one space per indentation level.
   ------------------------------------------------------------------ -/

/-- The path components of an entry (trailing slash disregarded). -/
def compsOf (p : Str) : List Str := splitChar '/' (rstripSlash p)

/-- Newline-joined rendering of the diagram lines. -/
def joinLines : List Str → Str
  | [] => []
  | [l] => l
  | l :: rest => l ++ '\n' :: joinLines rest

theorem mem_dropWhile_of_neg {c : Char} {p : Char → Bool} (hp : p c = false) :
    ∀ {l : Str}, c ∈ l → c ∈ l.dropWhile p := by
  intro l h
  induction l with
  | nil => exact absurd h (List.not_mem_nil c)
  | cons d l ih =>
    rw [List.dropWhile_cons]
    split
    · rcases List.mem_cons.mp h with rfl | h'
      · simp_all
      · exact ih h'
    · exact h

theorem mem_rstripW {c : Char} (hc : isPySpace c = false) {l : Str} (h : c ∈ l) :
    c ∈ rstripW l := by
  unfold rstripW
  rw [List.mem_reverse]
  exact mem_dropWhile_of_neg hc (List.mem_reverse.mpr h)

theorem mem_pyStrip {c : Char} (hc : isPySpace c = false) {l : Str} (h : c ∈ l) :
    c ∈ pyStrip l :=
  mem_rstripW hc (mem_dropWhile_of_neg hc h)

theorem pyStrip_subset {l : Str} : ∀ {c : Char}, c ∈ pyStrip l → c ∈ l := by
  intro c h
  unfold pyStrip rstripW at h
  rw [List.mem_reverse] at h
  replace h := (List.dropWhile_sublist _).subset h
  rw [List.mem_reverse] at h
  exact (List.dropWhile_sublist _).subset h

theorem mem_of_mem_nodePartOf {c : Char} {line : Str} (h : c ∈ nodePartOf line) :
    c ∈ line := by
  unfold nodePartOf at h
  replace h := pyStrip_subset h
  replace h := (List.takeWhile_sublist _).subset h
  exact (List.dropWhile_sublist _).subset h

/-- A character of the node token that is not whitespace also occurs in
the stripped line, so a line with such a node token is neither blank
nor the lone root marker. -/
theorem stripped_line_facts {c : Char} {line : Str} (hc : isPySpace c = false)
    (h : c ∈ nodePartOf line) : pyStrip line ≠ [] ∧ (c ≠ '.' → pyStrip line ≠ [ '.']) := by
  have hmem : c ∈ pyStrip line := mem_pyStrip hc (mem_of_mem_nodePartOf h)
  refine ⟨fun hnil => by simp [hnil] at hmem, fun hne hdot => ?_⟩
  rw [hdot] at hmem
  exact hne (List.mem_singleton.mp hmem)

theorem popStack_eq_dropWhile (indent : Nat) (stack : List (Str × Nat)) :
    popStack indent stack = stack.dropWhile (fun e => decide (indent ≤ e.2)) := by
  induction stack with
  | nil => rfl
  | cons e rest ih =>
    obtain ⟨p, i⟩ := e
    rw [popStack, List.dropWhile_cons]
    by_cases h : indent ≤ i
    · simp [h, ih]
    · simp [h]

/-- C2: on the documentation text whose first fenced code block holds
exactly the four lines of the example diagram, extract_documented_paths
returns exactly the four paths of the claim (given here in insertion
order; the list is duplicate-free and represents the returned set). -/
theorem C2_example_diagram_parse :
    extractDocumentedPaths defaultCfg
        (some (str "```\nsrc/\n  utils.ts\n  components/\n    Button.tsx\n```")) =
      some [str "src/", str "src/utils.ts", str "src/components/",
            str "src/components/Button.tsx"] := by
  decide

/-- C3 counterexample: with the stack non-empty (top path "a") and the
node token "/b", the reconstructed path is "/b" and not the
concatenation "a//b" the claim prescribes for every line under a
non-empty stack. -/
theorem C3_counterexample :
    extractDocumentedPaths defaultCfg (some (str "```\na/\n  /b\n```")) =
        some [str "a/", str "/b"] ∧
      str "/b" ∈ [str "a/", str "/b"] ∧ str "a//b" ∉ [str "a/", str "/b"] := by
  decide

/-- C3 (amended): the parse stack is unwound by popping while it is
non-empty and the new indentation is at most the indentation of its top
(the while loop equals dropWhile); the new full path is parent-path +
"/" + node token whenever the popped stack has a top with a non-empty
path and the token does not begin with "/"; with an empty stack the
path is the token itself unless the token names an ignored entry, in
which case the line is dropped; and a sibling at the indentation of an
earlier directory with deeper children attaches to that directory's
parent, as in the concrete four-line diagram. -/
theorem C3_stack_unwind_and_join (cfg : Config) :
    (∀ (indent : Nat) (stack : List (Str × Nat)),
        popStack indent stack = stack.dropWhile (fun e => decide (indent ≤ e.2))) ∧
    (∀ parent node : Str, parent ≠ [] → startsSlash node = false →
        computeCurrent cfg parent node = some (parent ++ '/' :: node)) ∧
    (∀ node : Str,
        computeCurrent cfg [] node =
          if rstripSlash node ∈ cfg.dirs ∨ rstripSlash node ∈ cfg.files then none
          else some node) ∧
    extractDocumentedPaths defaultCfg
        (some (str "```\nsrc/\n  components/\n    Button.tsx\n  utils.ts\n```")) =
      some [str "src/", str "src/components/", str "src/components/Button.tsx",
            str "src/utils.ts"] := by
  refine ⟨popStack_eq_dropWhile, ?_, ?_, by decide⟩
  · intro parent node h1 h2
    unfold computeCurrent
    rw [if_pos ⟨h1, h2⟩]
  · intro node
    unfold computeCurrent
    rw [if_neg (by simp)]

theorem C3_witness :
    popStack 1 [(str "x", 2), (str "src", 0)] = [(str "src", 0)] ∧
    computeCurrent defaultCfg (str "src") (str "utils.ts") = some (str "src/utils.ts") := by
  constructor
  · rw [(C3_stack_unwind_and_join defaultCfg).1]; decide
  · exact (C3_stack_unwind_and_join defaultCfg).2.1 _ _ (by decide) (by decide)

/-- C7: extract_documented_paths signals the unrecoverable error (the
none result, after which the driver prints and falls through) in
exactly two cases, a missing documentation file and content without a
fenced code block; in every other case it returns a result set. -/
theorem C7_error_cases (cfg : Config) (content? : Option Str) :
    extractDocumentedPaths cfg content? = none ↔
      content? = none ∨ ∃ c, content? = some c ∧ findBlock c = none := by
  cases content? with
  | none => simp [extractDocumentedPaths]
  | some c =>
    cases h : findBlock c with
    | none => simp [extractDocumentedPaths, h]
    | some g => simp [extractDocumentedPaths, h]

/-- C9: a diagram line whose node token contains the wildcard glyph
contributes no entry to the result set and leaves the parse stack
unchanged: the wildcard skip fires before the pop, so the whole state
is untouched. -/
theorem C9_wildcard_line_inert (cfg : Config) (st : PState) (line : Str)
    (h : '*' ∈ nodePartOf line) : processLine cfg st line = st := by
  have h1 : pyStrip line ≠ [] := (stripped_line_facts (by decide) h).1
  have h2 : pyStrip line ≠ [ '.'] := (stripped_line_facts (by decide) h).2 (by decide)
  have h3 : nodePartOf line ≠ [] := by
    intro hnil; rw [hnil] at h; exact (List.not_mem_nil _) h
  simp only [processLine]
  rw [if_neg (by tauto), if_neg h3, if_pos h]

theorem C9_witness : processLine defaultCfg ⟨[(str "src", 0)], [str "src/"]⟩ (str "  *.log") =
    ⟨[(str "src", 0)], [str "src/"]⟩ :=
  C9_wildcard_line_inert defaultCfg ⟨[(str "src", 0)], [str "src/"]⟩ (str "  *.log") (by decide)

/-- C10: a node token beginning with "/" is never joined to the parent
path: even with a non-empty stack the computed path is the token
itself, the line being dropped entirely only when the token (slashes
stripped) names an ignored entry. -/
theorem C10_slash_node_not_joined (cfg : Config) (parent node : Str)
    (h : startsSlash node = true) :
    computeCurrent cfg parent node =
      if rstripSlash node ∈ cfg.dirs ∨ rstripSlash node ∈ cfg.files then none
      else some node := by
  unfold computeCurrent
  rw [if_neg (by simp [h])]

theorem C10_witness :
    computeCurrent defaultCfg (str "a") (str "/b") = some (str "/b") := by
  rw [C10_slash_node_not_joined defaultCfg (str "a") (str "/b") (by decide)]
  decide

/- ------------------------------------------------------------------
   Path algebra: joining a component list into a relative path and the
   inverse facts about splitting.
   ------------------------------------------------------------------ -/

/-- The slash-joined rendering of a component list. -/
def joinComps : List Str → Str
  | [] => []
  | [c] => c
  | c :: rest => c ++ '/' :: joinComps rest

theorem splitChar_ne_nil (sep : Char) : ∀ l : Str, splitChar sep l ≠ [] := by
  intro l
  cases l with
  | nil => simp [splitChar]
  | cons c rest =>
    rw [splitChar]
    by_cases h : c = sep
    · simp [h]
    · rw [if_neg h]
      cases hs : splitChar sep rest <;> simp

theorem splitChar_append_sep (sep : Char) (a b : Str) :
    splitChar sep (a ++ sep :: b) = splitChar sep a ++ splitChar sep b := by
  induction a with
  | nil => simp [splitChar]
  | cons c a ih =>
    by_cases h : c = sep
    · subst h
      rw [List.cons_append, splitChar, if_pos rfl, ih, splitChar, if_pos rfl, List.cons_append]
    · rw [List.cons_append, splitChar, if_neg h, ih, splitChar, if_neg h]
      cases hs : splitChar sep a with
      | nil => exact absurd hs (splitChar_ne_nil sep a)
      | cons s ss => simp

theorem splitChar_no_sep (sep : Char) : ∀ a : Str, sep ∉ a → splitChar sep a = [a] := by
  intro a
  induction a with
  | nil => intro _; rfl
  | cons c a ih =>
    intro h
    rw [splitChar, if_neg (fun hc => h (by rw [← hc]; exact List.mem_cons_self c a)),
      ih (fun hm => h (List.mem_cons_of_mem c hm))]

theorem joinComps_cons_cons (c c' : Str) (cs : List Str) :
    joinComps (c :: c' :: cs) = c ++ '/' :: joinComps (c' :: cs) := rfl

theorem joinComps_ne_nil (c : Str) (cs : List Str) (hc : c ≠ []) :
    joinComps (c :: cs) ≠ [] := by
  cases cs with
  | nil => exact hc
  | cons c' cs' => simp [joinComps_cons_cons]

theorem joinComps_append_last : ∀ (cs : List Str) (d : Str), cs ≠ [] →
    joinComps (cs ++ [d]) = joinComps cs ++ '/' :: d := by
  intro cs
  induction cs with
  | nil => intro d h; exact absurd rfl h
  | cons c cs ih =>
    intro d _
    cases cs with
    | nil => rfl
    | cons c' cs' =>
      have h2 : (c' :: cs') ++ [d] = c' :: (cs' ++ [d]) := rfl
      calc joinComps ((c :: c' :: cs') ++ [d])
          = c ++ '/' :: joinComps ((c' :: cs') ++ [d]) := by rw [h2]; rfl
        _ = c ++ '/' :: (joinComps (c' :: cs') ++ '/' :: d) := by rw [ih d (by simp)]
        _ = joinComps (c :: c' :: cs') ++ '/' :: d := by
            rw [joinComps_cons_cons]; simp

theorem joinRel_joinComps (rs : List Str) (d : Str) (h : ∀ c ∈ rs, c ≠ []) :
    joinRel (joinComps rs) d = joinComps (rs ++ [d]) := by
  cases rs with
  | nil => rfl
  | cons c cs =>
    rw [joinRel, if_neg (joinComps_ne_nil c cs (h c (List.mem_cons_self c cs))),
      joinComps_append_last _ _ (by simp)]

theorem splitChar_joinComps : ∀ cs : List Str, (∀ c ∈ cs, '/' ∉ c) → cs ≠ [] →
    splitChar '/' (joinComps cs) = cs := by
  intro cs
  induction cs with
  | nil => intro _ h; exact absurd rfl h
  | cons c cs ih =>
    intro h _
    cases cs with
    | nil => exact splitChar_no_sep '/' c (h c (List.mem_cons_self c []))
    | cons c' cs' =>
      rw [joinComps_cons_cons, splitChar_append_sep,
        splitChar_no_sep '/' c (h c (List.mem_cons_self c _)),
        ih (fun x hx => h x (List.mem_cons_of_mem c hx)) (by simp)]
      rfl

theorem mem_of_getLast?_eq {l : Str} {c : Char} (h : l.getLast? = some c) : c ∈ l := by
  have hd := List.dropLast_append_getLast? c (by rw [h]; rfl)
  rw [← hd]
  exact List.mem_append_right _ (List.mem_cons_self c [])

theorem joinComps_no_trailing_slash : ∀ cs : List Str,
    (∀ d ∈ cs, d ≠ [] ∧ '/' ∉ d) → ∀ c, (joinComps cs).getLast? = some c → c ≠ '/' := by
  intro cs
  induction cs with
  | nil => intro _ c hc; simp [joinComps] at hc
  | cons d cs ih =>
    intro h c hc
    cases cs with
    | nil =>
      have hd := h d (List.mem_cons_self d [])
      intro he
      exact hd.2 (he ▸ mem_of_getLast?_eq hc)
    | cons c' cs' =>
      have hx : joinComps (c' :: cs') ≠ [] :=
        joinComps_ne_nil c' cs' (h c' (List.mem_cons_of_mem d (List.mem_cons_self c' cs'))).1
      rw [joinComps_cons_cons, List.getLast?_append_cons,
        show ('/' :: joinComps (c' :: cs')) = [ '/'] ++ joinComps (c' :: cs') from rfl,
        List.getLast?_append_of_ne_nil _ hx] at hc
      exact ih (fun x hx' => h x (List.mem_cons_of_mem d hx')) c hc

theorem rstripSlash_eq_self {l : Str} (h : ∀ c, l.getLast? = some c → c ≠ '/') :
    rstripSlash l = l := by
  unfold rstripSlash
  cases hl : l.reverse with
  | nil => rw [List.dropWhile_nil, ← hl, List.reverse_reverse]
  | cons c rest =>
    have hc : l.getLast? = some c := by rw [← List.head?_reverse l, hl]; rfl
    rw [List.dropWhile_cons, if_neg (by simp [h c hc]), ← hl, List.reverse_reverse]

theorem rstripSlash_append_slash (l : Str) : rstripSlash (l ++ [ '/']) = rstripSlash l := by
  unfold rstripSlash
  rw [List.reverse_append]
  simp [List.dropWhile_cons]

theorem rstripSlash_joinComps (cs : List Str) (h : ∀ d ∈ cs, d ≠ [] ∧ '/' ∉ d) :
    rstripSlash (joinComps cs) = joinComps cs :=
  rstripSlash_eq_self (joinComps_no_trailing_slash cs h)

theorem compsOf_dir (cs : List Str) (h : ∀ d ∈ cs, d ≠ [] ∧ '/' ∉ d) (hne : cs ≠ []) :
    compsOf (joinComps cs ++ [ '/']) = cs := by
  unfold compsOf
  rw [rstripSlash_append_slash, rstripSlash_joinComps cs h,
    splitChar_joinComps cs (fun c hc => (h c hc).2) hne]

theorem compsOf_file (cs : List Str) (h : ∀ d ∈ cs, d ≠ [] ∧ '/' ∉ d) (hne : cs ≠ []) :
    compsOf (joinComps cs) = cs := by
  unfold compsOf
  rw [rstripSlash_joinComps cs h, splitChar_joinComps cs (fun c hc => (h c hc).2) hne]

theorem endsSlash_concat_slash (p : Str) : endsSlash (p ++ [ '/']) = true := by
  unfold endsSlash
  rw [List.getLast?_append_of_ne_nil p (by simp)]
  rfl

theorem endsSlash_joinComps (cs : List Str) (h : ∀ d ∈ cs, d ≠ [] ∧ '/' ∉ d) :
    endsSlash (joinComps cs) = false := by
  unfold endsSlash
  cases hg : (joinComps cs).getLast? with
  | none => rfl
  | some c =>
    have := joinComps_no_trailing_slash cs h c hg
    simp [this]

/- ------------------------------------------------------------------
   A generic characterization of the scanner output: every entry is a
   slash-joined chain of names of descended (hence non-ignored)
   directories, with a kept file name appended for file entries.  The
   name predicates dp and fp are instantiated per claim.
   ------------------------------------------------------------------ -/

mutual
def treeAll (cfg : Config) (dp fp : Str → Bool) : FSTree → Bool
  | .node ds fs => fs.all fp && dirsAll cfg dp fp ds
def dirsAll (cfg : Config) (dp fp : Str → Bool) : FSDirs → Bool
  | .nil => true
  | .cons d t rest =>
    (decide (d ∈ cfg.dirs) || (dp d && treeAll cfg dp fp t)) && dirsAll cfg dp fp rest
end

def ScanShape (cfg : Config) (dp fp : Str → Bool) (rs : List Str) (p : Str) : Prop :=
  (∃ cs, cs ≠ [] ∧ (∃ u, rs ++ u = cs) ∧
     (∀ c ∈ cs.drop rs.length, dp c = true ∧ c ∉ cfg.dirs) ∧
     p = joinComps cs ++ [ '/']) ∨
  (∃ ds fn, (∃ u, rs ++ u = ds) ∧
     (∀ c ∈ ds.drop rs.length, dp c = true ∧ c ∉ cfg.dirs) ∧
     fp fn = true ∧ fn ∉ cfg.files ∧ lowerStr (pySuffixOfName (pyName fn)) ∉ cfg.exts ∧
     cfg.patterns (joinComps (ds ++ [fn])) = false ∧
     p = joinComps (ds ++ [fn]))

theorem ScanShape_weaken (cfg : Config) (dp fp : Str → Bool) (rs : List Str) (d : Str)
    (hd : dp d = true ∧ d ∉ cfg.dirs) (p : Str)
    (h : ScanShape cfg dp fp (rs ++ [d]) p) : ScanShape cfg dp fp rs p := by
  rcases h with ⟨cs, hne, ⟨u, hu⟩, hdrop, hp⟩ | ⟨ds, fn, ⟨u, hu⟩, hdrop, hf0, hf1, hf2, hf3, hp⟩
  · left
    refine ⟨cs, hne, ⟨d :: u, by rw [← hu]; simp⟩, ?_, hp⟩
    intro c hc
    have hu' : List.drop (rs ++ [d]).length cs = u := by rw [← hu, List.drop_left]
    rw [← hu, List.append_assoc, List.drop_left] at hc
    rcases List.mem_append.mp hc with hcd | hcu
    · rw [List.mem_singleton.mp hcd]; exact hd
    · exact hdrop c (by rw [hu']; exact hcu)
  · right
    refine ⟨ds, fn, ⟨d :: u, by rw [← hu]; simp⟩, ?_, hf0, hf1, hf2, hf3, hp⟩
    intro c hc
    have hu' : List.drop (rs ++ [d]).length ds = u := by rw [← hu, List.drop_left]
    rw [← hu, List.append_assoc, List.drop_left] at hc
    rcases List.mem_append.mp hc with hcd | hcu
    · rw [List.mem_singleton.mp hcd]; exact hd
    · exact hdrop c (by rw [hu']; exact hcu)

mutual
theorem scanTree_shape (cfg : Config) (dp fp : Str → Bool)
    (hdp : ∀ c, dp c = true → c ≠ []) (t : FSTree) (rs : List Str)
    (ht : treeAll cfg dp fp t = true) (hrs : ∀ c ∈ rs, c ≠ []) :
    ∀ p ∈ scanTree cfg (joinComps rs) t, ScanShape cfg dp fp rs p := by
  match t with
  | .node ds fs =>
    intro p hp
    rw [treeAll, Bool.and_eq_true] at ht
    rw [scanTree] at hp
    rcases List.mem_append.mp hp with hp1 | hp2
    · rcases List.mem_append.mp hp1 with hp0 | hpf
      · by_cases hrel : joinComps rs = []
        · rw [if_pos hrel] at hp0
          exact absurd hp0 (List.not_mem_nil p)
        · rw [if_neg hrel] at hp0
          have hps : rs ≠ [] := by
            intro h0
            rw [h0] at hrel
            exact hrel rfl
          exact Or.inl ⟨rs, hps, ⟨[], by simp⟩, by simp, List.mem_singleton.mp hp0⟩
      · obtain ⟨fn, hfn, rfl⟩ := List.mem_map.mp hpf
        have hfs := (List.mem_filter.mp hfn).1
        have hkeep := (List.mem_filter.mp hfn).2
        rw [keepFile, Bool.and_eq_true, Bool.and_eq_true] at hkeep
        obtain ⟨⟨hk1, hk2⟩, hk3⟩ := hkeep
        rw [Bool.not_eq_true', decide_eq_false_iff_not] at hk1 hk2
        rw [Bool.not_eq_true'] at hk3
        refine Or.inr ⟨rs, fn, ⟨[], by simp⟩, by simp,
          List.all_eq_true.mp ht.1 fn hfs, hk1, hk2, ?_, ?_⟩
        · rw [← joinRel_joinComps rs fn hrs]; exact hk3
        · rw [joinRel_joinComps rs fn hrs]
    · exact scanFSDirs_shape cfg dp fp hdp ds rs ht.2 hrs p hp2
theorem scanFSDirs_shape (cfg : Config) (dp fp : Str → Bool)
    (hdp : ∀ c, dp c = true → c ≠ []) (ds : FSDirs) (rs : List Str)
    (ht : dirsAll cfg dp fp ds = true) (hrs : ∀ c ∈ rs, c ≠ []) :
    ∀ p ∈ scanFSDirs cfg (joinComps rs) ds, ScanShape cfg dp fp rs p := by
  match ds with
  | .nil =>
    intro p hp
    rw [scanFSDirs] at hp
    exact absurd hp (List.not_mem_nil p)
  | .cons d t rest =>
    intro p hp
    rw [dirsAll, Bool.and_eq_true] at ht
    rw [scanFSDirs] at hp
    rcases List.mem_append.mp hp with hp1 | hp2
    · by_cases hd : d ∈ cfg.dirs
      · rw [if_pos hd] at hp1
        exact absurd hp1 (List.not_mem_nil p)
      · rw [if_neg hd] at hp1
        have hdt : dp d = true ∧ treeAll cfg dp fp t = true := by
          have h1 := ht.1
          rw [Bool.or_eq_true] at h1
          rcases h1 with h1 | h1
          · exact absurd (of_decide_eq_true h1) hd
          · rw [Bool.and_eq_true] at h1; exact h1
        have hd' : d ≠ [] := hdp d hdt.1
        rw [joinRel_joinComps rs d hrs] at hp1
        have hrs' : ∀ c ∈ rs ++ [d], c ≠ [] := by
          intro c hc
          rcases List.mem_append.mp hc with h | h
          · exact hrs c h
          · rw [List.mem_singleton.mp h]; exact hd'
        exact ScanShape_weaken cfg dp fp rs d ⟨hdt.1, hd⟩ p
          (scanTree_shape cfg dp fp hdp t (rs ++ [d]) hdt.2 hrs' p hp1)
    · exact scanFSDirs_shape cfg dp fp hdp rest rs ht.2 hrs p hp2
end

theorem validName_iff (n : Str) : validName n = true ↔ n ≠ [] ∧ '/' ∉ n ∧ n ≠ [ '.'] := by
  simp [validName, and_assoc]

mutual
theorem validTree_treeAll (cfg : Config) (t : FSTree) (h : validTree t = true) :
    treeAll cfg validName validName t = true := by
  match t with
  | .node ds fs =>
    rw [validTree, Bool.and_eq_true] at h
    rw [treeAll, Bool.and_eq_true]
    exact ⟨h.1, validDirs_dirsAll cfg ds h.2⟩
theorem validDirs_dirsAll (cfg : Config) (ds : FSDirs) (h : validDirs ds = true) :
    dirsAll cfg validName validName ds = true := by
  match ds with
  | .nil => rfl
  | .cons d t rest =>
    rw [validDirs, Bool.and_eq_true, Bool.and_eq_true] at h
    rw [dirsAll, Bool.and_eq_true]
    refine ⟨?_, validDirs_dirsAll cfg rest h.2⟩
    rw [Bool.or_eq_true]
    exact Or.inr (by rw [Bool.and_eq_true]; exact ⟨h.1.1, validTree_treeAll cfg t h.1.2⟩)
end

theorem mem_extract_filter (cfg : Config) {c? : Option Str} {res : List Str}
    (h : extractDocumentedPaths cfg c? = some res) {p : Str} (hp : p ∈ res) :
    finalFilterB cfg p = true := by
  cases c? with
  | none => exact absurd h (by simp [extractDocumentedPaths])
  | some c =>
    cases hb : findBlock c with
    | none =>
      rw [extractDocumentedPaths, hb] at h
      exact absurd h (by simp)
    | some g =>
      rw [extractDocumentedPaths, hb] at h
      rw [← Option.some.inj h] at hp
      exact (List.mem_filter.mp hp).2

theorem finalFilterB_eq_true_iff (cfg : Config) (p : Str) :
    finalFilterB cfg p = true ↔
      pyName p ∉ cfg.files ∧ (endsSlash p = true → pyName p ∉ cfg.dirs) ∧
      (∀ part ∈ pyParts p, part ∉ cfg.dirs) ∧
      (endsSlash p = false → lowerStr (pySuffixOfName (pyName p)) ∉ cfg.exts) := by
  rw [finalFilterB]
  simp only [Bool.and_eq_true, Bool.or_eq_true, Bool.not_eq_true', decide_eq_true_eq]
  constructor
  · rintro ⟨⟨⟨h1, h2⟩, h3⟩, h4⟩
    refine ⟨h1, ?_, h3, ?_⟩
    · intro he
      rcases h2 with h2 | h2
      · rw [he] at h2; cases h2
      · exact h2
    · intro he
      rcases h4 with h4 | h4
      · rw [he] at h4; cases h4
      · exact h4
  · rintro ⟨h1, h2, h3, h4⟩
    refine ⟨⟨⟨h1, ?_⟩, h3⟩, ?_⟩
    · cases he : endsSlash p
      · exact Or.inl rfl
      · exact Or.inr (h2 he)
    · cases he : endsSlash p
      · exact Or.inr (h4 he)
      · exact Or.inl rfl

theorem joinComps_ne_nil' (cs : List Str) (hne : cs ≠ []) (h : ∀ d ∈ cs, d ≠ []) :
    joinComps cs ≠ [] := by
  cases cs with
  | nil => exact absurd rfl hne
  | cons c cs' => exact joinComps_ne_nil c cs' (h c (List.mem_cons_self c cs'))

/-- C1 counterexample: with the ignore rules of the script, a tree
whose root holds a file literally named ".git" makes the scanner emit
the path ".git", which has the ignored directory name ".git" as its
single path component (the per-name pruning applies to directories
only, never to file names). -/
theorem C1_counterexample :
    str ".git" ∈ scanTree defaultCfg [] (.node .nil [str ".git"]) ∧
    str ".git" ∈ defaultCfg.dirs ∧ pyParts (str ".git") = [str ".git"] := by
  decide

/-- C1 (amended): the parser result never contains a path having an
ignored directory name among its components; the scanner result never
does either, except that the final name component of a file entry may
itself be an ignored directory name (a file named like an ignored
directory is not excluded). -/
theorem C1_no_ignored_components (cfg : Config) :
    (∀ (c? : Option Str) (res : List Str), extractDocumentedPaths cfg c? = some res →
      ∀ p ∈ res, ∀ part ∈ pyParts p, part ∉ cfg.dirs) ∧
    (∀ t : FSTree, validTree t = true → ∀ p ∈ scanTree cfg [] t,
      ∀ c ∈ (if endsSlash p = true then compsOf p else (compsOf p).dropLast),
        c ∉ cfg.dirs) := by
  constructor
  · intro c? res h p hp part hpart
    exact ((finalFilterB_eq_true_iff cfg p).mp (mem_extract_filter cfg h hp)).2.2.1 part hpart
  · intro t hv p hp
    have hshape := scanTree_shape cfg validName validName
      (fun c hc => ((validName_iff c).mp hc).1) t [] (validTree_treeAll cfg t hv)
      (fun c hc => absurd hc (List.not_mem_nil c)) p hp
    rcases hshape with ⟨cs, hne, _, hdrop, rfl⟩ | ⟨ds, fn, _, hdrop, hfp, _, _, _, rfl⟩
    · have hfacts : ∀ d ∈ cs, validName d = true ∧ d ∉ cfg.dirs := by
        intro d hd
        exact hdrop d (by simpa using hd)
      have hclean : ∀ d ∈ cs, d ≠ [] ∧ '/' ∉ d := by
        intro d hd
        have := (validName_iff d).mp (hfacts d hd).1
        exact ⟨this.1, this.2.1⟩
      rw [if_pos (endsSlash_concat_slash _), compsOf_dir cs hclean hne]
      intro c hc
      exact (hfacts c hc).2
    · have hfacts : ∀ d ∈ ds, validName d = true ∧ d ∉ cfg.dirs := by
        intro d hd
        exact hdrop d (by simpa using hd)
      have hclean : ∀ d ∈ ds ++ [fn], d ≠ [] ∧ '/' ∉ d := by
        intro d hd
        rcases List.mem_append.mp hd with hd | hd
        · have := (validName_iff d).mp (hfacts d hd).1
          exact ⟨this.1, this.2.1⟩
        · rw [List.mem_singleton.mp hd]
          have := (validName_iff fn).mp hfp
          exact ⟨this.1, this.2.1⟩
      rw [if_neg (by rw [endsSlash_joinComps _ hclean]; simp),
        compsOf_file _ hclean (by simp), List.dropLast_concat]
      intro c hc
      exact (hfacts c hc).2

theorem C1_witness :
    ∀ part ∈ pyParts (str "src/"), part ∉ defaultCfg.dirs := by
  have h := (C1_no_ignored_components defaultCfg).1 (some (str "```\nsrc/\n```"))
    [str "src/"] (by decide)
  exact h (str "src/") (by decide)

/-- C5 counterexample: the parser never applies the regex patterns:
the documented file "debug.log" matches the ignored pattern (any path
ending in ".log", which makes the scanner drop such a file), yet it is
a member of the parser result. -/
theorem C5_counterexample :
    extractDocumentedPaths defaultCfg (some (str "```\ndebug.log\n```")) =
        some [str "debug.log"] ∧
      defaultCfg.patterns (str "debug.log") = true ∧
      scanTree defaultCfg [] (.node .nil [str "debug.log"]) = [] := by
  decide

/-- C5 (amended): the parser applies the name-based and extension-based
ignore rules of the scanner, though not its regex patterns: every
member of the result set has its final name outside the ignored file
names, outside the ignored directory names when a directory entry, a
lower-cased suffix outside the ignored extensions when a file entry,
and no ignored directory name among its path components. -/
theorem C5_name_rules_enforced (cfg : Config) (c? : Option Str) (res : List Str)
    (h : extractDocumentedPaths cfg c? = some res) :
    ∀ p ∈ res,
      pyName p ∉ cfg.files ∧
      (endsSlash p = true → pyName p ∉ cfg.dirs) ∧
      (∀ part ∈ pyParts p, part ∉ cfg.dirs) ∧
      (endsSlash p = false → lowerStr (pySuffixOfName (pyName p)) ∉ cfg.exts) := by
  intro p hp
  exact (finalFilterB_eq_true_iff cfg p).mp (mem_extract_filter cfg h hp)

theorem C5_witness :
    pyName (str "a.ts") ∉ defaultCfg.files := by
  exact (C5_name_rules_enforced defaultCfg (some (str "```\na.ts\n```")) [str "a.ts"]
    (by decide) (str "a.ts") (by decide)).1

/-- Well-formedness of one output path: non-empty, and its components
(disregarding the single directory marker slash) are non-empty and are
not the single dot; this makes the entry a forward-slash-normalized
relative path with no leading, doubled or extra trailing slash, and
different from the root spellings. -/
def goodEntry (p : Str) : Bool :=
  decide (p ≠ []) &&
  (splitChar '/' (if endsSlash p = true then p.dropLast else p)).all
    (fun c => decide (c ≠ []) && decide (c ≠ [ '.']))

/-- C8: over a valid directory tree, every entry of the scanner result
is a non-empty forward-slash-normalized relative path; a directory
entry carries exactly one trailing slash, a file entry none, and the
root itself (empty, dot or dot-slash) is never an element. -/
theorem C8_entries_normalized (cfg : Config) (t : FSTree) (hv : validTree t = true) :
    ∀ p ∈ scanTree cfg [] t, goodEntry p = true := by
  intro p hp
  have hshape := scanTree_shape cfg validName validName
    (fun c hc => ((validName_iff c).mp hc).1) t [] (validTree_treeAll cfg t hv)
    (fun c hc => absurd hc (List.not_mem_nil c)) p hp
  rcases hshape with ⟨cs, hne, _, hdrop, rfl⟩ | ⟨ds, fn, _, hdrop, hfp, _, _, _, rfl⟩
  · have hfacts : ∀ d ∈ cs, validName d = true := by
      intro d hd
      exact (hdrop d (by simpa using hd)).1
    have hclean : ∀ d ∈ cs, d ≠ [] ∧ '/' ∉ d := by
      intro d hd
      have := (validName_iff d).mp (hfacts d hd)
      exact ⟨this.1, this.2.1⟩
    rw [goodEntry, Bool.and_eq_true]
    refine ⟨by simp, ?_⟩
    rw [if_pos (endsSlash_concat_slash _), List.dropLast_concat,
      splitChar_joinComps cs (fun c hc => (hclean c hc).2) hne, List.all_eq_true]
    intro c hc
    have := (validName_iff c).mp (hfacts c hc)
    simp [this.1, this.2.2]
  · have hvn : ∀ d ∈ ds ++ [fn], validName d = true := by
      intro d hd
      rcases List.mem_append.mp hd with hd | hd
      · exact (hdrop d (by simpa using hd)).1
      · rw [List.mem_singleton.mp hd]; exact hfp
    have hclean : ∀ d ∈ ds ++ [fn], d ≠ [] ∧ '/' ∉ d := by
      intro d hd
      have := (validName_iff d).mp (hvn d hd)
      exact ⟨this.1, this.2.1⟩
    rw [goodEntry, Bool.and_eq_true]
    constructor
    · simp only [decide_eq_true_eq]
      exact joinComps_ne_nil' (ds ++ [fn]) (by simp) (fun d hd => (hclean d hd).1)
    · rw [if_neg (by rw [endsSlash_joinComps _ hclean]; simp),
        splitChar_joinComps _ (fun c hc => (hclean c hc).2) (by simp), List.all_eq_true]
      intro c hc
      have := (validName_iff c).mp (hvn c hc)
      simp [this.1, this.2.2]

theorem C8_witness :
    validTree (.node (.cons (str "src") (.node .nil [str "a.ts"]) .nil)
      [str "readme.md"]) = true ∧ goodEntry (str "src/") = true := by
  refine ⟨by decide, ?_⟩
  exact C8_entries_normalized defaultCfg
    (.node (.cons (str "src") (.node .nil [str "a.ts"]) .nil) [str "readme.md"])
    (by decide) (str "src/") (by decide)

/-- C6 counterexample: the directory line "structure.md/" is withheld
from the parse stack although its own name is not an ignored directory
name (it is an ignored file name): the child line then attaches to the
root, so the result is the bare "x.ts". -/
theorem C6_counterexample :
    extractDocumentedPaths defaultCfg (some (str "```\nstructure.md/\n  x.ts\n```")) =
        some [str "x.ts"] ∧
      str "structure.md" ∉ defaultCfg.dirs ∧ str "structure.md" ∈ defaultCfg.files := by
  decide

/-- The path the loop body computes for a line, given the state before
the line (the join under the popped-stack parent, or the node token
itself). -/
def currentOf (cfg : Config) (st : PState) (line : Str) : Str :=
  if parentOf (popStack (indentOf line) st.stack) ≠ [] ∧
      startsSlash (nodePartOf line) = false
  then parentOf (popStack (indentOf line) st.stack) ++ '/' :: nodePartOf line
  else nodePartOf line

/-- C6 (amended): a directory line is withheld from the parse stack
only by name-based rules: by its token name or its reconstructed final
name being an ignored directory name OR an ignored file name (or by
being a wildcard line).  When none of these hold, the line is pushed
with its clean path and its indentation, with no condition on the
other components of the path: exclusion of the reconstructed path from
the result set because of an ignored ancestor component does not
prevent the push. -/
theorem C6_push_conditions (cfg : Config) (st : PState) (line : Str)
    (hdir : endsSlash (nodePartOf line) = true)
    (hstar : '*' ∉ nodePartOf line)
    (h1 : rstripSlash (nodePartOf line) ∉ cfg.dirs)
    (h2 : rstripSlash (nodePartOf line) ∉ cfg.files)
    (h3 : pyName (rstripSlash (currentOf cfg st line)) ∉ cfg.dirs)
    (h4 : pyName (rstripSlash (currentOf cfg st line)) ∉ cfg.files) :
    (processLine cfg st line).stack =
      (rstripSlash (currentOf cfg st line), indentOf line) ::
        popStack (indentOf line) st.stack := by
  have hslash : '/' ∈ nodePartOf line :=
    mem_of_getLast?_eq (by simpa [endsSlash] using hdir)
  have hs1 : pyStrip line ≠ [] := (stripped_line_facts (by decide) hslash).1
  have hs2 : pyStrip line ≠ [ '.'] := (stripped_line_facts (by decide) hslash).2 (by decide)
  have hnode : nodePartOf line ≠ [] := by
    intro hnil
    rw [hnil] at hslash
    exact (List.not_mem_nil _) hslash
  have hcc : computeCurrent cfg (parentOf (popStack (indentOf line) st.stack))
      (nodePartOf line) = some (currentOf cfg st line) := by
    rw [computeCurrent, currentOf]
    by_cases hb : parentOf (popStack (indentOf line) st.stack) ≠ [] ∧
        startsSlash (nodePartOf line) = false
    · rw [if_pos hb, if_pos hb]
    · rw [if_neg hb, if_neg hb, if_neg (fun hor => hor.elim h1 h2)]
  simp only [processLine]
  rw [if_neg (by tauto), if_neg hnode, if_neg hstar,
    if_neg (by rintro ⟨hor, -⟩; exact hor.elim h1 h2),
    if_neg (by rintro ⟨-, hmem⟩; exact h1 hmem), hcc]
  simp only [afterPath]
  rw [if_neg h3, if_neg (by simp [hdir]), if_neg h4, if_pos ⟨hdir, h3⟩]

theorem C6_witness :
    (processLine defaultCfg ⟨[(str "x/.git", 0)], []⟩ (str "  sub/")).stack =
      [(str "x/.git/sub", 2), (str "x/.git", 0)] := by
  rw [C6_push_conditions defaultCfg ⟨[(str "x/.git", 0)], []⟩ (str "  sub/")
    (by decide) (by decide) (by decide) (by decide) (by decide) (by decide)]
  decide

/- ------------------------------------------------------------------
   The code-point lexicographic order used by the serializer, with the
   sortedness facts the round-trip proof rests on.
   ------------------------------------------------------------------ -/

theorem joinLines_cons_cons (l l' : Str) (ls : List Str) :
    joinLines (l :: l' :: ls) = l ++ '\n' :: joinLines (l' :: ls) := rfl

theorem joinLines_append_last : ∀ (ls : List Str) (l : Str), ls ≠ [] →
    joinLines (ls ++ [l]) = joinLines ls ++ '\n' :: l := by
  intro ls
  induction ls with
  | nil => intro l h; exact absurd rfl h
  | cons l0 ls ih =>
    intro l _
    cases ls with
    | nil => rfl
    | cons l1 ls' =>
      have h2 : (l1 :: ls') ++ [l] = l1 :: (ls' ++ [l]) := rfl
      calc joinLines ((l0 :: l1 :: ls') ++ [l])
          = l0 ++ '\n' :: joinLines ((l1 :: ls') ++ [l]) := by rw [h2]; rfl
        _ = l0 ++ '\n' :: (joinLines (l1 :: ls') ++ '\n' :: l) := by rw [ih l (by simp)]
        _ = joinLines (l0 :: l1 :: ls') ++ '\n' :: l := by
            rw [joinLines_cons_cons]; simp

def cleanName (n : Str) : Bool :=
  decide (n ≠ []) && !(decide ('/' ∈ n)) && !(decide ('#' ∈ n)) && !(decide ('*' ∈ n)) &&
  !(decide ('`' ∈ n)) && !(decide ('\n' ∈ n)) && decide (n ≠ [ '.']) &&
  (n.head?.all fun c => !isDeco c) && (n.getLast?.all fun c => !isPySpace c)

theorem cleanName_parts {n : Str} (h : cleanName n = true) :
    n ≠ [] ∧ '/' ∉ n ∧ '#' ∉ n ∧ '*' ∉ n ∧ '`' ∉ n ∧ '\n' ∉ n ∧ n ≠ [ '.'] ∧
    (∀ c, n.head? = some c → isDeco c = false) ∧
    (∀ c, n.getLast? = some c → isPySpace c = false) := by
  rw [cleanName] at h
  simp only [Bool.and_eq_true, Bool.not_eq_true', decide_eq_true_eq,
    decide_eq_false_iff_not] at h
  obtain ⟨⟨⟨⟨⟨⟨⟨⟨h1, h2⟩, h3⟩, h4⟩, h5⟩, h6⟩, h7⟩, h8⟩, h9⟩ := h
  refine ⟨h1, h2, h3, h4, h5, h6, h7, ?_, ?_⟩
  · intro c hc
    rw [hc] at h8
    simpa using h8
  · intro c hc
    rw [hc] at h9
    simpa using h9

/-- A directory name that does not distort the diagram: diagram-safe
and not an ignored file name (an ignored directory name is allowed,
the scanner prunes it away). -/
def cleanDirName (cfg : Config) (d : Str) : Bool :=
  cleanName d && !(decide (d ∈ cfg.files))

/-- A file name that does not distort the diagram: either dropped by
the scanner by name or extension anyway, or diagram-safe and not an
ignored directory name. -/
def cleanFileName (cfg : Config) (fn : Str) : Bool :=
  decide (fn ∈ cfg.files) || decide (lowerStr (pySuffixOfName (pyName fn)) ∈ cfg.exts) ||
  (cleanName fn && !(decide (fn ∈ cfg.dirs)))

/-- The canonical spelling of one scanned entry from its component
chain. -/
def entryOf (cs : List Str) (isDir : Bool) : Str :=
  joinComps cs ++ if isDir then [ '/'] else []

theorem band_mp {a b : Bool} (h : (a && b) = true) : a = true ∧ b = true := by
  rw [Bool.and_eq_true] at h
  exact h

theorem bnot_decide_mp {q : Prop} [Decidable q] (h : (!(decide q)) = true) : ¬q := by
  rw [Bool.not_eq_true', decide_eq_false_iff_not] at h
  exact h

theorem entryOf_false (cs : List Str) : entryOf cs false = joinComps cs := by
  simp [entryOf]

theorem entryOf_true (cs : List Str) : entryOf cs true = joinComps cs ++ [ '/'] := by
  simp [entryOf]

def dirCompsOf (p : Str) : List Str :=
  if endsSlash p = true then compsOf p else (compsOf p).dropLast

/-- The documented directory ancestor of an entry at a given depth. -/
def ancestorOf (p : Str) (j : Nat) : Str :=
  joinComps ((dirCompsOf p).take j) ++ [ '/']

theorem entryOf_endsSlash (cs : List Str) (isDir : Bool)
    (hclean : ∀ c ∈ cs, c ≠ [] ∧ '/' ∉ c) :
    endsSlash (entryOf cs isDir) = isDir := by
  cases isDir
  · rw [entryOf_false]
    exact endsSlash_joinComps cs hclean
  · rw [entryOf_true]
    exact endsSlash_concat_slash _

theorem entryOf_dirComps (cs : List Str) (isDir : Bool) (hne : cs ≠ [])
    (hclean : ∀ c ∈ cs, c ≠ [] ∧ '/' ∉ c) :
    dirCompsOf (entryOf cs isDir) = if isDir = true then cs else cs.dropLast := by
  rw [dirCompsOf, entryOf_endsSlash cs isDir hclean]
  cases isDir
  · rw [if_neg (by simp), if_neg (by simp), entryOf_false, compsOf_file cs hclean hne]
  · rw [if_pos rfl, if_pos rfl, entryOf_true, compsOf_dir cs hclean hne]

theorem self_mem_scanTree (cfg : Config) (rel : Str) (t : FSTree) (h : rel ≠ []) :
    (rel ++ [ '/']) ∈ scanTree cfg rel t := by
  cases t with
  | node ds fs =>
    rw [scanTree, if_neg h]
    exact List.mem_append.mpr (Or.inl (List.mem_append.mpr (Or.inl (List.mem_singleton.mpr rfl))))

theorem cleanDir_ne_nil (cfg : Config) : ∀ c, cleanDirName cfg c = true → c ≠ [] :=
  fun _ h => (cleanName_parts (band_mp h).1).1

/-- Over diagram-safe names, the directory components of any scanned
entry extend the components of the relative directory of the call. -/
theorem scan_dirComps_shape (cfg : Config) {rs' : List Str} {p : Str}
    (hsh : ScanShape cfg (cleanDirName cfg) (cleanFileName cfg) rs' p)
    (hrs : ∀ c ∈ rs', cleanName c = true) :
    ∃ v, dirCompsOf p = rs' ++ v := by
  rcases hsh with ⟨cs, hne, ⟨u, hu⟩, hdrop, rfl⟩ | ⟨ds, fn, ⟨u, hu⟩, hdrop, hfp, hk1, hk2, _, rfl⟩
  · have hcl : ∀ c ∈ cs, c ≠ [] ∧ '/' ∉ c := by
      intro c hc
      rw [← hu] at hc
      rcases List.mem_append.mp hc with hc | hc
      · have := cleanName_parts (hrs c hc)
        exact ⟨this.1, this.2.1⟩
      · have hc' : c ∈ cs.drop rs'.length := by
          rw [← hu, List.drop_left]
          exact hc
        have := cleanName_parts (band_mp (hdrop c hc').1).1
        exact ⟨this.1, this.2.1⟩
    rw [show joinComps cs ++ [ '/'] = entryOf cs true from (entryOf_true cs).symm,
      entryOf_dirComps cs true hne hcl, if_pos rfl]
    exact ⟨u, hu.symm⟩
  · have hfn : cleanName fn = true := by
      rw [cleanFileName, Bool.or_eq_true, Bool.or_eq_true] at hfp
      rcases hfp with (h | h) | h
      · exact absurd (of_decide_eq_true h) hk1
      · exact absurd (of_decide_eq_true h) hk2
      · exact (band_mp h).1
    have hcl : ∀ c ∈ ds ++ [fn], c ≠ [] ∧ '/' ∉ c := by
      intro c hc
      rcases List.mem_append.mp hc with hc | hc
      · rw [← hu] at hc
        rcases List.mem_append.mp hc with hc | hc
        · have := cleanName_parts (hrs c hc)
          exact ⟨this.1, this.2.1⟩
        · have hc' : c ∈ ds.drop rs'.length := by
            rw [← hu, List.drop_left]
            exact hc
          have := cleanName_parts (band_mp (hdrop c hc').1).1
          exact ⟨this.1, this.2.1⟩
      · rw [List.mem_singleton.mp hc]
        have := cleanName_parts hfn
        exact ⟨this.1, this.2.1⟩
    rw [show joinComps (ds ++ [fn]) = entryOf (ds ++ [fn]) false from (entryOf_false _).symm,
      entryOf_dirComps (ds ++ [fn]) false (by simp) hcl, if_neg (by simp),
      List.dropLast_concat]
    exact ⟨u, hu.symm⟩

mutual
theorem scanTree_closed (cfg : Config) (t : FSTree) (rs : List Str)
    (ht : treeAll cfg (cleanDirName cfg) (cleanFileName cfg) t = true)
    (hrs : ∀ c ∈ rs, cleanName c = true) :
    ∀ p ∈ scanTree cfg (joinComps rs) t, ∀ j, rs.length < j →
      j ≤ (dirCompsOf p).length →
      ancestorOf p j ∈ scanTree cfg (joinComps rs) t := by
  match t with
  | .node ds fs =>
    intro p hp j hj1 hj2
    rw [treeAll] at ht
    have ht' := band_mp ht
    rw [scanTree] at hp ⊢
    rcases List.mem_append.mp hp with hp1 | hp2
    · exfalso
      rcases List.mem_append.mp hp1 with hp0 | hpf
      · by_cases hrel : joinComps rs = []
        · rw [if_pos hrel] at hp0
          exact (List.not_mem_nil p) hp0
        · rw [if_neg hrel] at hp0
          have hne : rs ≠ [] := fun h0 => hrel (by rw [h0]; rfl)
          have hcl : ∀ c ∈ rs, c ≠ [] ∧ '/' ∉ c := fun c hc =>
            ⟨(cleanName_parts (hrs c hc)).1, (cleanName_parts (hrs c hc)).2.1⟩
          have hpe := List.mem_singleton.mp hp0
          subst hpe
          rw [show joinComps rs ++ [ '/'] = entryOf rs true from (entryOf_true rs).symm,
            entryOf_dirComps rs true hne hcl, if_pos rfl] at hj2
          omega
      · obtain ⟨fn, hfn, rfl⟩ := List.mem_map.mp hpf
        have hfs := (List.mem_filter.mp hfn).1
        have hkeep := (List.mem_filter.mp hfn).2
        rw [keepFile, Bool.and_eq_true, Bool.and_eq_true] at hkeep
        obtain ⟨⟨hk1, hk2⟩, -⟩ := hkeep
        have hfp := List.all_eq_true.mp ht'.1 fn hfs
        have hfn' : cleanName fn = true := by
          rw [cleanFileName, Bool.or_eq_true, Bool.or_eq_true] at hfp
          rcases hfp with (h | h) | h
          · exact absurd (of_decide_eq_true h) (bnot_decide_mp hk1)
          · exact absurd (of_decide_eq_true h) (bnot_decide_mp hk2)
          · exact (band_mp h).1
        have hcl : ∀ c ∈ rs ++ [fn], c ≠ [] ∧ '/' ∉ c := by
          intro c hc
          rcases List.mem_append.mp hc with hc | hc
          · exact ⟨(cleanName_parts (hrs c hc)).1, (cleanName_parts (hrs c hc)).2.1⟩
          · rw [List.mem_singleton.mp hc]
            have := cleanName_parts hfn'
            exact ⟨this.1, this.2.1⟩
        rw [joinRel_joinComps rs fn (fun c hc => (cleanName_parts (hrs c hc)).1),
          show joinComps (rs ++ [fn]) = entryOf (rs ++ [fn]) false from
            (entryOf_false _).symm,
          entryOf_dirComps (rs ++ [fn]) false (by simp) hcl, if_neg (by simp),
          List.dropLast_concat] at hj2
        omega
    · exact List.mem_append.mpr
        (Or.inr (scanFSDirs_closed cfg ds rs ht'.2 hrs p hp2 j hj1 hj2))
theorem scanFSDirs_closed (cfg : Config) (ds : FSDirs) (rs : List Str)
    (ht : dirsAll cfg (cleanDirName cfg) (cleanFileName cfg) ds = true)
    (hrs : ∀ c ∈ rs, cleanName c = true) :
    ∀ p ∈ scanFSDirs cfg (joinComps rs) ds, ∀ j, rs.length < j →
      j ≤ (dirCompsOf p).length →
      ancestorOf p j ∈ scanFSDirs cfg (joinComps rs) ds := by
  match ds with
  | .nil =>
    intro p hp
    rw [scanFSDirs] at hp
    exact absurd hp (List.not_mem_nil p)
  | .cons d t rest =>
    intro p hp j hj1 hj2
    rw [dirsAll] at ht
    have ht' := band_mp ht
    rw [scanFSDirs] at hp ⊢
    rcases List.mem_append.mp hp with hp1 | hp2
    · by_cases hd : d ∈ cfg.dirs
      · rw [if_pos hd] at hp1
        exact absurd hp1 (List.not_mem_nil p)
      · rw [if_neg hd] at hp1
        have hdt : cleanDirName cfg d = true ∧
            treeAll cfg (cleanDirName cfg) (cleanFileName cfg) t = true := by
          have h1 := ht'.1
          rw [Bool.or_eq_true] at h1
          rcases h1 with h1 | h1
          · exact absurd (of_decide_eq_true h1) hd
          · exact band_mp h1
        have hdc : cleanName d = true := (band_mp hdt.1).1
        have hrs' : ∀ c ∈ rs ++ [d], cleanName c = true := by
          intro c hc
          rcases List.mem_append.mp hc with hc | hc
          · exact hrs c hc
          · rw [List.mem_singleton.mp hc]
            exact hdc
        rw [joinRel_joinComps rs d (fun c hc => (cleanName_parts (hrs c hc)).1)] at hp1 ⊢
        have hshape := scanTree_shape cfg (cleanDirName cfg) (cleanFileName cfg)
          (cleanDir_ne_nil cfg) t (rs ++ [d]) hdt.2
          (fun c hc => (cleanName_parts (hrs' c hc)).1) p hp1
        obtain ⟨v, hv⟩ := scan_dirComps_shape cfg hshape hrs'
        by_cases hj : j = rs.length + 1
        · subst hj
          have htake : (dirCompsOf p).take (rs.length + 1) = rs ++ [d] := by
            rw [hv, show rs.length + 1 = (rs ++ [d]).length from by simp, List.take_left]
          rw [ancestorOf, htake]
          refine List.mem_append.mpr (Or.inl ?_)
          rw [if_neg hd]
          exact self_mem_scanTree cfg _ t
            (joinComps_ne_nil' (rs ++ [d]) (by simp)
              (fun c hc => (cleanName_parts (hrs' c hc)).1))
        · have hj1' : (rs ++ [d]).length < j := by
            rw [List.length_append]
            simp only [List.length_singleton]
            omega
          have := scanTree_closed cfg t (rs ++ [d]) hdt.2 hrs' p hp1 j hj1' hj2
          exact List.mem_append.mpr (Or.inl (by rw [if_neg hd]; exact this))
    · exact List.mem_append.mpr
        (Or.inr (scanFSDirs_closed cfg rest rs ht'.2 hrs p hp2 j hj1 hj2))
end

/- ------------------------------------------------------------------
   The parse stack the loop builds after a clean entry: the chain of
   the directory ancestors, deepest on top, each with indentation one
   less than its depth.
   ------------------------------------------------------------------ -/

